import Mathlib

/-!
Verification of the KERI key event log storage engine (module keri.db.dbing).

The development shallowly embeds the storage layer: byte strings are lists of
naturals, the LMDB environment is a function from named sub-database and key to
the duplicate list held at that key (LMDB keeps duplicates sorted in
byte-lexicographic order, which the insertion functions below maintain), and
each keyspace operation of the Databaser class is translated directly from its
Python body.  Machine formatting such as the percent-06x ordinal and the
percent-032x sequence-number field is embedded as exact hexadecimal rendering
with zero padding and no truncation, as Python produces it.
-/

/-- Byte strings: lists of byte values. -/
abbrev Bytes := List Nat

/-- Byte-lexicographic (memcmp-style) strict order on byte strings, as LMDB
compares keys and duplicate values: a proper initial segment sorts first. -/
def bytesLt : Bytes → Bytes → Bool
  | [], [] => false
  | [], _ :: _ => true
  | _ :: _, [] => false
  | a :: s, b :: t => if a < b then true else if b < a then false else bytesLt s t

/-- Lowercase hexadecimal digit byte for a value below 16, as Python x
formatting emits: 0 to 9 are bytes 48 to 57, 10 to 15 are bytes 97 to 102. -/
def hexChar (d : Nat) : Nat := if d < 10 then 48 + d else 87 + d

/-- Numeric value of a lowercase hexadecimal digit byte. -/
def undigit (c : Nat) : Nat := if c ≤ 57 then c - 48 else c - 87

/-- The byte is a lowercase hexadecimal digit. -/
def IsDig (c : Nat) : Prop := (48 ≤ c ∧ c ≤ 57) ∨ (97 ≤ c ∧ c ≤ 102)

instance (c : Nat) : Decidable (IsDig c) := by unfold IsDig; infer_instance

/-- Hexadecimal digit bytes of a natural, least significant first, empty for
zero.  The first argument is structural fuel, always called with fuel at least
the number being rendered. -/
def hexRevAux : Nat → Nat → List Nat
  | _, 0 => []
  | 0, _ + 1 => []
  | f + 1, n + 1 => hexChar ((n + 1) % 16) :: hexRevAux f ((n + 1) / 16)

/-- Hexadecimal digit bytes of a natural, least significant first. -/
def hexRev (n : Nat) : List Nat := hexRevAux n n

/-- Minimal lowercase hexadecimal rendering of a natural, as Python percent-x
formatting produces it: most significant digit first, and the single byte 48
(the character 0) for zero. -/
def hexBytes (n : Nat) : List Nat := if n = 0 then [48] else (hexRev n).reverse

/-- Python percent-0wx formatting: the minimal hexadecimal rendering, left
padded with 0 bytes to width w.  A value needing more than w digits is NOT
truncated: the rendering simply comes out longer than w, exactly as Python
formats it. -/
def fmtHex (w n : Nat) : List Nat :=
  List.replicate (w - (hexBytes n).length) 48 ++ hexBytes n

/-- Numeric value of a big-endian string of hexadecimal digit bytes. -/
def unhexBE : List Nat → Nat
  | [] => 0
  | c :: s => undigit c * 16 ^ s.length + unhexBE s

/-- Insertion-order ordinal prepended by putIoVals and addIoVal: the Python
expression percent-06x of the count followed by the dot byte 46. -/
def ordPre (cnt : Nat) : Bytes := fmtHex 6 cnt ++ [46]

/-- Databaser.snKey: prefix bytes, the dot byte, then percent-032x of the
sequence number. -/
def snKey (pre : Bytes) (sn : Nat) : Bytes := pre ++ [46] ++ fmtHex 32 sn

/-- Databaser.dgKey: prefix bytes, the dot byte, then the digest bytes. -/
def dgKey (pre dig : Bytes) : Bytes := pre ++ [46] ++ dig

/-- The LMDB environment: every named sub-database maps each key to the list
of duplicate values stored there, kept sorted in byte-lexicographic order.  A
sub-database opened without dupsort holds at most one value per key.  An
absent key holds the empty list. -/
abbrev Env := String → Bytes → List Bytes

/-- The freshly opened environment: no entries anywhere. -/
def envEmpty : Env := fun _ _ => []

/-- Replace the duplicate list stored at one key of one sub-database. -/
def updateEnv (env : Env) (db : String) (key : Bytes) (l : List Bytes) : Env :=
  fun db2 key2 => if db2 = db ∧ key2 = key then l else env db2 key2

/-- Sorted set insertion, the effect of txn.put with dupdata on one duplicate
list: the value lands at its byte-lexicographic position and an exact
duplicate of an existing value is not stored twice. -/
def insOrd (v : Bytes) : List Bytes → List Bytes
  | [] => [v]
  | w :: t => if bytesLt v w then v :: w :: t
              else if v = w then w :: t
              else w :: insOrd v t

/-- Databaser.putVal: txn.put without overwrite.  Writes only when the key is
absent; reports an occupied key with false. -/
def putVal (env : Env) (db : String) (key val : Bytes) : Env × Bool :=
  match env db key with
  | [] => (updateEnv env db key [val], true)
  | _ :: _ => (env, false)

/-- Databaser.setVal: txn.put with overwrite, always true. -/
def setVal (env : Env) (db : String) (key val : Bytes) : Env × Bool :=
  (updateEnv env db key [val], true)

/-- Databaser.getVal: txn.get, none when the key is absent. -/
def getVal (env : Env) (db : String) (key : Bytes) : Option Bytes :=
  (env db key).head?

/-- Databaser.delVal: txn.delete, true exactly when the key existed. -/
def delVal (env : Env) (db : String) (key : Bytes) : Env × Bool :=
  match env db key with
  | [] => (env, false)
  | _ :: _ => (updateEnv env db key [], true)

/-- Databaser.putVals: one txn.put with dupdata per value, accumulating the
conjunction of the results, which is always true under dupsort. -/
def putVals (env : Env) (db : String) (key : Bytes) (vals : List Bytes) : Env × Bool :=
  (updateEnv env db key (vals.foldl (fun l v => insOrd v l) (env db key)), true)

/-- Databaser.getVals: the duplicates at the key in lexicographic order. -/
def getVals (env : Env) (db : String) (key : Bytes) : List Bytes :=
  env db key

/-- Databaser.cntVals: cursor count of the duplicates at the key. -/
def cntVals (env : Env) (db : String) (key : Bytes) : Nat :=
  (env db key).length

/-- Databaser.addVal: reads the existing duplicates first and refuses with
false when the value is already present, otherwise one txn.put with dupdata. -/
def addVal (env : Env) (db : String) (key val : Bytes) : Env × Bool :=
  if val ∈ getVals env db key then (env, false)
  else (updateEnv env db key (insOrd val (env db key)), true)

/-- Databaser.delVals: txn.delete of the key and every duplicate, true exactly
when the key existed.  The unused dupdata parameter of the source is dropped. -/
def delVals (env : Env) (db : String) (key : Bytes) : Env × Bool :=
  match env db key with
  | [] => (env, false)
  | _ :: _ => (updateEnv env db key [], true)

/-- Databaser.getIoVals: the duplicates at the key with the first seven bytes
of each, the ordinal prefix, sliced off. -/
def getIoVals (env : Env) (db : String) (key : Bytes) : List Bytes :=
  (env db key).map (fun v => v.drop 7)

/-- The loop body of Databaser.putIoVals: dups is the stripped value set read
once before the loop and never refreshed inside it, cnt is the running cursor
count, and the accumulated result becomes true on the first insertion. -/
def ioPutLoop (dups : List Bytes) : List Bytes → List Bytes → Nat → Bool → List Bytes × Bool
  | l, [], _, res => (l, res)
  | l, v :: vs, cnt, res =>
      if v ∈ dups then ioPutLoop dups l vs cnt res
      else ioPutLoop dups (insOrd (ordPre cnt ++ v) l) vs (cnt + 1) true

/-- Databaser.putIoVals: reads the stripped duplicates and the cursor count,
then runs the insertion loop, prepending the percent-06x ordinal of the
running count to every value not in the pre-read set. -/
def putIoVals (env : Env) (db : String) (key : Bytes) (vals : List Bytes) : Env × Bool :=
  let l := env db key
  let r := ioPutLoop (l.map (fun v => v.drop 7)) l vals l.length false
  (updateEnv env db key r.1, r.2)

/-- Databaser.addIoVal: single-value insertion-ordered add; refuses with false
when the stripped value is already present. -/
def addIoVal (env : Env) (db : String) (key val : Bytes) : Env × Bool :=
  let l := env db key
  if val ∈ l.map (fun v => v.drop 7) then (env, false)
  else (updateEnv env db key (insOrd (ordPre l.length ++ val) l), true)

/-- Databaser.getIoValsLast: cursor to the last duplicate at the key and slice
off the ordinal prefix; none when the key is absent. -/
def getIoValsLast (env : Env) (db : String) (key : Bytes) : Option Bytes :=
  (env db key).getLast?.map (fun v => v.drop 7)

/-- Databaser.cntIoVals: cursor count of the duplicates at the key. -/
def cntIoVals (env : Env) (db : String) (key : Bytes) : Nat :=
  (env db key).length

/-- Databaser.delIoVals: txn.delete of the key and every duplicate, true
exactly when the key existed.  The unused dupdata parameter is dropped. -/
def delIoVals (env : Env) (db : String) (key : Bytes) : Env × Bool :=
  match env db key with
  | [] => (env, false)
  | _ :: _ => (updateEnv env db key [], true)

/-- A sequence of putIoVals calls against one key, the shape in which the
insertion-ordered logs are grown. -/
def runIoScript (env : Env) (db : String) (key : Bytes) : List (List Bytes) → Env
  | [] => env
  | vs :: rest => runIoScript (putIoVals env db key vs).1 db key rest

/-- The duplicate list that holds the values vs in insertion order, each
carrying its ordinal, numbering from i. -/
def ioListFrom (i : Nat) : List Bytes → List Bytes
  | [] => []
  | v :: vs => (ordPre i ++ v) :: ioListFrom (i + 1) vs

/-- Logger.putPses: insertion-ordered insert into the pses. sub-database. -/
def putPses (env : Env) (key : Bytes) (vals : List Bytes) : Env × Bool :=
  putIoVals env "pses." key vals

/-- Logger.cntPses. -/
def cntPses (env : Env) (key : Bytes) : Nat := cntIoVals env "pses." key

/-- Logger.delPses. -/
def delPses (env : Env) (key : Bytes) : Env × Bool := delIoVals env "pses." key

/-- Logger.putOoes: insertion-ordered insert into the ooes. sub-database. -/
def putOoes (env : Env) (key : Bytes) (vals : List Bytes) : Env × Bool :=
  putIoVals env "ooes." key vals

/-- Logger.cntOoes. -/
def cntOoes (env : Env) (key : Bytes) : Nat := cntIoVals env "ooes." key

/-- Databaser.HeadDirPath. -/
def HeadDirPath : String := "/var"

/-- Databaser.TailDirPath. -/
def TailDirPath : String := "keri/db"

/-- Databaser.AltHeadDirPath. -/
def AltHeadDirPath : String := "~"

/-- Databaser.AltTailDirPath. -/
def AltTailDirPath : String := ".keri/db"

/-- An OSError carrying its errno. -/
structure OSErr where
  errno : Nat
deriving DecidableEq

/-- errno of EPERM. -/
def EPERM : Nat := 1

/-- errno of EACCES. -/
def EACCES : Nat := 13

/-- The filesystem behaviour visible to Databaser init: existence, combined
read and write access, directory creation with its possible OSError, and the
environment-dependent expanduser and abspath resolutions. -/
structure FSys where
  pathExists : String → Bool
  accessRW : String → Bool
  makedirs : String → Option OSErr
  expandUser : String → String
  absPath : String → String

/-- os.path.join of three relative components. -/
def joinPath3 (a b c : String) : String := a ++ "/" ++ b ++ "/" ++ c

/-- The preferred directory of Databaser init: abspath of expanduser of
head joined with TailDirPath and the instance name, the head defaulting to
HeadDirPath when none is given. -/
def primaryPath (fs : FSys) (headDirPath : Option String) (name : String) : String :=
  fs.absPath (fs.expandUser (joinPath3 (headDirPath.getD HeadDirPath) TailDirPath name))

/-- The alternate directory of Databaser init: abspath of expanduser of
AltHeadDirPath joined with AltTailDirPath and the instance name. -/
def altPath (fs : FSys) (name : String) : String :=
  fs.absPath (fs.expandUser (joinPath3 AltHeadDirPath AltTailDirPath name))

/-- The fallback arm of Databaser init: move to the alternate path, create it
when missing, and let any creation error escape. -/
def altResolve (fs : FSys) (name : String) : Except OSErr String :=
  let p := altPath fs name
  if fs.pathExists p then Except.ok p
  else match fs.makedirs p with
       | none => Except.ok p
       | some e => Except.error e

/-- The non-temp directory resolution of Databaser init: keep the preferred
path when it exists with read and write access or when makedirs succeeds;
fall back on a failed access check, and on ANY OSError from makedirs. -/
def resolvePath (fs : FSys) (headDirPath : Option String) (name : String) : Except OSErr String :=
  let p := primaryPath fs headDirPath name
  if fs.pathExists p then
    if fs.accessRW p then Except.ok p else altResolve fs name
  else
    match fs.makedirs p with
    | none => Except.ok p
    | some _ => altResolve fs name

/-- A filesystem on which creating the preferred directory fails with ENOSPC,
errno 28, while the alternate directory already exists. -/
def fsDiskFull : FSys where
  pathExists := fun p => p == "~/.keri/db/main"
  accessRW := fun _ => true
  makedirs := fun _ => some ⟨28⟩
  expandUser := fun p => p
  absPath := fun p => p


theorem bytesLt_irrefl (s : Bytes) : bytesLt s s = false := by
  induction s with
  | nil => rfl
  | cons a t ih => simp [bytesLt, ih]

theorem bytesLt_asymm : ∀ {s t : Bytes}, bytesLt s t = true → bytesLt t s = false := by
  intro s
  induction s with
  | nil =>
    intro t h
    cases t with
    | nil => simp [bytesLt] at h
    | cons b u => rfl
  | cons a s ih =>
    intro t h
    cases t with
    | nil => simp [bytesLt] at h
    | cons b u =>
      simp only [bytesLt] at h ⊢
      by_cases hab : a < b
      · have hba : ¬ b < a := by omega
        simp [hab, hba]
      · by_cases hba : b < a
        · simp [hab, hba] at h
        · have heq : b = a := by omega
          subst heq
          simp only [if_neg hab] at h ⊢
          exact ih h

theorem bytesLt_append_left (p : Bytes) : ∀ s t : Bytes, bytesLt (p ++ s) (p ++ t) = bytesLt s t := by
  induction p with
  | nil => intro s t; rfl
  | cons a p ih => intro s t; simp [bytesLt, ih]

theorem bytesLt_append_of_lt : ∀ {s t : Bytes}, s.length = t.length → bytesLt s t = true →
    ∀ u v : Bytes, bytesLt (s ++ u) (t ++ v) = true := by
  intro s
  induction s with
  | nil =>
    intro t hlen h
    cases t with
    | nil => simp [bytesLt] at h
    | cons b w => simp at hlen
  | cons a s ih =>
    intro t hlen h u v
    cases t with
    | nil => simp at hlen
    | cons b w =>
      simp only [bytesLt, List.cons_append] at h ⊢
      by_cases hab : a < b
      · simp [hab]
      · by_cases hba : b < a
        · simp [hab, hba] at h
        · simp only [if_neg hab, if_neg hba] at h ⊢
          exact ih (by simpa using hlen) h u v

theorem hexRevAux_zero (f : Nat) : hexRevAux f 0 = [] := by
  cases f <;> rfl

theorem hexRevAux_succ (f n : Nat) :
    hexRevAux (f + 1) (n + 1) = hexChar ((n + 1) % 16) :: hexRevAux f ((n + 1) / 16) := rfl

theorem hexRevAux_congr : ∀ f1 f2 n, n ≤ f1 → n ≤ f2 → hexRevAux f1 n = hexRevAux f2 n := by
  intro f1
  induction f1 with
  | zero =>
    intro f2 n h1 _
    have : n = 0 := by omega
    subst this
    rw [hexRevAux_zero, hexRevAux_zero]
  | succ f ih =>
    intro f2 n h1 h2
    cases n with
    | zero => rw [hexRevAux_zero, hexRevAux_zero]
    | succ m =>
      cases f2 with
      | zero => omega
      | succ g =>
        rw [hexRevAux_succ, hexRevAux_succ]
        have hdiv : (m + 1) / 16 ≤ m :=
          Nat.lt_succ_iff.mp (Nat.div_lt_self (Nat.succ_pos m) (by omega))
        congr 1
        exact ih g ((m + 1) / 16) (by omega) (by omega)

theorem hexRev_succ {n : Nat} (h : n ≠ 0) :
    hexRev n = hexChar (n % 16) :: hexRev (n / 16) := by
  obtain ⟨m, rfl⟩ : ∃ m, n = m + 1 := ⟨n - 1, by omega⟩
  show hexRevAux (m + 1) (m + 1) = _
  rw [hexRevAux_succ]
  congr 1
  have hdiv : (m + 1) / 16 ≤ m :=
    Nat.lt_succ_iff.mp (Nat.div_lt_self (Nat.succ_pos m) (by omega))
  exact hexRevAux_congr m ((m + 1) / 16) ((m + 1) / 16) hdiv le_rfl

theorem isDig_hexChar {d : Nat} (h : d < 16) : IsDig (hexChar d) := by
  unfold IsDig hexChar
  split <;> omega

theorem undigit_hexChar {d : Nat} (h : d < 16) : undigit (hexChar d) = d := by
  unfold undigit hexChar
  split <;> split <;> omega

theorem undigit_lt_undigit {c d : Nat} (hc : IsDig c) (hd : IsDig d) (h : c < d) :
    undigit c < undigit d := by
  unfold IsDig at hc hd
  unfold undigit
  split <;> split <;> omega

theorem hexRev_digits : ∀ n, ∀ c ∈ hexRev n, IsDig c := by
  intro n
  induction n using Nat.strong_induction_on with
  | _ n ih =>
    intro c hc
    by_cases h : n = 0
    · subst h
      simp [hexRev, hexRevAux_zero] at hc
    · rw [hexRev_succ h] at hc
      rcases List.mem_cons.mp hc with rfl | hc
      · exact isDig_hexChar (Nat.mod_lt _ (by omega))
      · exact ih (n / 16) (Nat.div_lt_self (by omega) (by omega)) c hc

theorem hexRev_length_le (w : Nat) : ∀ n, (hexRev n).length ≤ w ↔ n < 16 ^ w := by
  induction w with
  | zero =>
    intro n
    simp only [pow_zero, Nat.lt_one_iff, Nat.le_zero, List.length_eq_zero]
    constructor
    · intro h
      by_contra hne
      rw [hexRev_succ hne] at h
      exact List.cons_ne_nil _ _ h
    · intro h
      subst h
      rfl
  | succ w ih =>
    intro n
    by_cases h : n = 0
    · subst h
      have : hexRev 0 = [] := rfl
      simp [this, Nat.pos_pow_of_pos]
    · rw [hexRev_succ h]
      simp only [List.length_cons, Nat.succ_le_succ_iff]
      rw [ih (n / 16)]
      rw [pow_succ]
      exact Nat.div_lt_iff_lt_mul (by omega)

theorem unhexBE_concat (s : List Nat) (c : Nat) :
    unhexBE (s ++ [c]) = 16 * unhexBE s + undigit c := by
  induction s with
  | nil => simp [unhexBE]
  | cons a t ih =>
    have hl : (t ++ [c]).length = t.length + 1 := by simp
    simp only [List.cons_append, unhexBE, List.append_eq, ih]
    rw [hl, pow_succ]
    ring

theorem unhexBE_hexRev_reverse : ∀ n, unhexBE (hexRev n).reverse = n := by
  intro n
  induction n using Nat.strong_induction_on with
  | _ n ih =>
    by_cases h : n = 0
    · subst h; rfl
    · rw [hexRev_succ h, List.reverse_cons, unhexBE_concat,
        ih (n / 16) (Nat.div_lt_self (by omega) (by omega)),
        undigit_hexChar (Nat.mod_lt _ (by omega))]
      exact Nat.div_add_mod n 16

theorem unhexBE_replicate_zero (k : Nat) (s : List Nat) :
    unhexBE (List.replicate k 48 ++ s) = unhexBE s := by
  induction k with
  | zero => rfl
  | succ k ih =>
    rw [List.replicate_succ, List.cons_append]
    show undigit 48 * 16 ^ (List.replicate k 48 ++ s).length + unhexBE (List.replicate k 48 ++ s)
        = unhexBE s
    rw [ih]
    have h48 : undigit 48 = 0 := by decide
    rw [h48]
    simp

theorem unhexBE_lt (s : List Nat) (h : ∀ c ∈ s, IsDig c) : unhexBE s < 16 ^ s.length := by
  induction s with
  | nil => simp [unhexBE]
  | cons a t ih =>
    have ha : IsDig a := h a (by simp)
    have hd : undigit a ≤ 15 := by
      unfold IsDig at ha
      unfold undigit
      split <;> omega
    have ht := ih (fun c hc => h c (List.mem_cons_of_mem _ hc))
    simp only [unhexBE, List.length_cons]
    have hmul : undigit a * 16 ^ t.length ≤ 15 * 16 ^ t.length :=
      Nat.mul_le_mul_right _ hd
    have : 15 * 16 ^ t.length + 16 ^ t.length = 16 ^ (t.length + 1) := by
      rw [pow_succ]; ring
    omega

theorem unhexBE_mono_lex : ∀ s t : List Nat, s.length = t.length →
    (∀ c ∈ s, IsDig c) → (∀ c ∈ t, IsDig c) → unhexBE s < unhexBE t →
    bytesLt s t = true := by
  intro s
  induction s with
  | nil =>
    intro t hlen _ _ hlt
    cases t with
    | nil => simp [unhexBE] at hlt
    | cons b u => simp at hlen
  | cons a s ih =>
    intro t hlen hs ht hlt
    cases t with
    | nil => simp at hlen
    | cons b u =>
      have hlen2 : s.length = u.length := by simpa using hlen
      have ha : IsDig a := hs a (by simp)
      have hb : IsDig b := ht b (by simp)
      have hsd : ∀ c ∈ s, IsDig c := fun c hc => hs c (List.mem_cons_of_mem _ hc)
      have hud : ∀ c ∈ u, IsDig c := fun c hc => ht c (List.mem_cons_of_mem _ hc)
      simp only [unhexBE, hlen2] at hlt
      simp only [bytesLt]
      by_cases hab : a < b
      · simp [hab]
      · by_cases hba : b < a
        · exfalso
          have hub : undigit b < undigit a := undigit_lt_undigit hb ha hba
          have hsu : unhexBE s < 16 ^ u.length := by
            rw [← hlen2]; exact unhexBE_lt s hsd
          have huu : unhexBE u < 16 ^ u.length := unhexBE_lt u hud
          have e2 : (undigit b + 1) * 16 ^ u.length ≤ undigit a * 16 ^ u.length :=
            Nat.mul_le_mul_right _ (by omega)
          have e1 : undigit b * 16 ^ u.length + 16 ^ u.length
              = (undigit b + 1) * 16 ^ u.length := by ring
          linarith
        · have heq : a = b := by omega
          subst heq
          simp only [if_neg hab, if_neg hba]
          apply ih u hlen2 hsd hud
          linarith

theorem hexBytes_digits (n : Nat) : ∀ c ∈ hexBytes n, IsDig c := by
  unfold hexBytes
  split
  · intro c hc
    simp at hc
    subst hc
    decide
  · intro c hc
    exact hexRev_digits n c (List.mem_reverse.mp hc)

theorem unhexBE_hexBytes (n : Nat) : unhexBE (hexBytes n) = n := by
  unfold hexBytes
  split
  · rename_i h
    subst h
    decide
  · exact unhexBE_hexRev_reverse n

theorem hexBytes_length_le {w n : Nat} (hw : 1 ≤ w) : (hexBytes n).length ≤ w ↔ n < 16 ^ w := by
  unfold hexBytes
  split
  · rename_i h
    subst h
    simp only [List.length_singleton]
    constructor
    · intro _
      exact Nat.pos_pow_of_pos w (by omega)
    · intro _
      exact hw
  · rw [List.length_reverse]
    exact hexRev_length_le w n

theorem unhexBE_fmtHex (w n : Nat) : unhexBE (fmtHex w n) = n := by
  unfold fmtHex
  rw [unhexBE_replicate_zero]
  exact unhexBE_hexBytes n

theorem fmtHex_digits (w n : Nat) : ∀ c ∈ fmtHex w n, IsDig c := by
  unfold fmtHex
  intro c hc
  rcases List.mem_append.mp hc with hc | hc
  · have := List.eq_of_mem_replicate hc
    subst this
    decide
  · exact hexBytes_digits n c hc

theorem fmtHex_length {w n : Nat} (hw : 1 ≤ w) (hn : n < 16 ^ w) : (fmtHex w n).length = w := by
  have hl : (hexBytes n).length ≤ w := (hexBytes_length_le hw).mpr hn
  unfold fmtHex
  rw [List.length_append, List.length_replicate]
  omega

theorem fmtHex_length_eq_max (w n : Nat) :
    (fmtHex w n).length = max w (hexBytes n).length := by
  unfold fmtHex
  rw [List.length_append, List.length_replicate]
  omega

theorem fmtHex_mono {w n1 n2 : Nat} (hw : 1 ≤ w) (h12 : n1 < n2) (h2 : n2 < 16 ^ w) :
    bytesLt (fmtHex w n1) (fmtHex w n2) = true := by
  apply unhexBE_mono_lex
  · rw [fmtHex_length hw (lt_trans h12 h2), fmtHex_length hw h2]
  · exact fmtHex_digits w n1
  · exact fmtHex_digits w n2
  · rw [unhexBE_fmtHex, unhexBE_fmtHex]
    exact h12

theorem hexBytes_length_gt {w n : Nat} (hw : 1 ≤ w) (hn : 16 ^ w ≤ n) :
    w < (hexBytes n).length := by
  by_contra h
  push_neg at h
  exact absurd ((hexBytes_length_le hw).mp h) (by omega)

theorem mem_insOrd_self (a : Bytes) : ∀ l : List Bytes, a ∈ insOrd a l := by
  intro l
  induction l with
  | nil => simp [insOrd]
  | cons w t ih =>
    unfold insOrd
    by_cases h1 : bytesLt a w = true
    · simp [h1]
    · simp only [h1, if_false]
      by_cases h2 : a = w
      · simp [h2]
      · simp only [h2, if_false]
        exact List.mem_cons_of_mem _ ih

theorem insOrd_of_mem : ∀ l : List Bytes, List.Pairwise (fun x y => bytesLt x y = true) l →
    ∀ a ∈ l, insOrd a l = l := by
  intro l
  induction l with
  | nil => intro _ a ha; simp at ha
  | cons w t ih =>
    intro hp a ha
    have hpt := List.pairwise_cons.mp hp
    unfold insOrd
    rcases List.mem_cons.mp ha with rfl | hat
    · rw [bytesLt_irrefl]
      simp
    · have hwa : bytesLt w a = true := hpt.1 a hat
      have h1 : bytesLt a w = false := bytesLt_asymm hwa
      have h2 : a ≠ w := by
        intro h
        subst h
        rw [bytesLt_irrefl] at hwa
        exact Bool.false_ne_true hwa
      simp only [h1, Bool.false_eq_true, if_false, h2, if_false]
      rw [ih hpt.2 a hat]

theorem insOrd_append (a : Bytes) : ∀ l : List Bytes,
    (∀ w ∈ l, bytesLt w a = true) → insOrd a l = l ++ [a] := by
  intro l
  induction l with
  | nil => intro _; rfl
  | cons w t ih =>
    intro h
    have hwa : bytesLt w a = true := h w (by simp)
    have h1 : bytesLt a w = false := bytesLt_asymm hwa
    have h2 : a ≠ w := by
      intro he
      subst he
      rw [bytesLt_irrefl] at hwa
      exact Bool.false_ne_true hwa
    unfold insOrd
    simp only [h1, Bool.false_eq_true, if_false, h2, if_false]
    rw [ih (fun x hx => h x (List.mem_cons_of_mem _ hx))]
    rfl

theorem count_insOrd (a : Bytes) : ∀ l : List Bytes, a ∉ l →
    (insOrd a l).count a = l.count a + 1 := by
  intro l
  induction l with
  | nil => intro _; simp [insOrd]
  | cons w t ih =>
    intro ha
    have haw : a ≠ w := fun h => ha (h ▸ List.mem_cons_self a t)
    have hat : a ∉ t := fun h => ha (List.mem_cons_of_mem _ h)
    unfold insOrd
    by_cases h1 : bytesLt a w = true
    · simp [h1, List.count_cons, haw]
    · simp only [h1, Bool.false_eq_true, if_false, haw, if_false]
      simp [List.count_cons, haw, ih hat]

theorem updateEnv_same (env : Env) (db : String) (key : Bytes) (l : List Bytes) :
    updateEnv env db key l db key = l := by
  unfold updateEnv
  simp

theorem updateEnv_other (env : Env) (db : String) (key : Bytes) (l : List Bytes)
    (db2 : String) (key2 : Bytes) (h : ¬ (db2 = db ∧ key2 = key)) :
    updateEnv env db key l db2 key2 = env db2 key2 := by
  unfold updateEnv
  rw [if_neg h]

theorem updateEnv_id (env : Env) (db : String) (key : Bytes) :
    updateEnv env db key (env db key) = env := by
  funext db2 key2
  unfold updateEnv
  split
  · rename_i h
    rw [h.1, h.2]
  · rfl

theorem ordPre_length {i : Nat} (h : i < 16 ^ 6) : (ordPre i).length = 7 := by
  unfold ordPre
  rw [List.length_append, fmtHex_length (by omega) h]
  rfl

theorem ordPre_drop {i : Nat} (h : i < 16 ^ 6) (v : Bytes) : (ordPre i ++ v).drop 7 = v := by
  have hl : (ordPre i).length = 7 := ordPre_length h
  rw [← hl]
  exact List.drop_left _ _

theorem ordPre_lt {i j : Nat} (hij : i < j) (hj : j < 16 ^ 6) (a b : Bytes) :
    bytesLt (ordPre i ++ a) (ordPre j ++ b) = true := by
  unfold ordPre
  rw [List.append_assoc, List.append_assoc]
  apply bytesLt_append_of_lt
  · rw [fmtHex_length (by omega) (lt_trans hij hj), fmtHex_length (by omega) hj]
  · exact fmtHex_mono (by omega) hij hj

theorem ioListFrom_append (v : Bytes) : ∀ (us : List Bytes) (i : Nat),
    ioListFrom i (us ++ [v]) = ioListFrom i us ++ [ordPre (i + us.length) ++ v] := by
  intro us
  induction us with
  | nil => intro i; simp [ioListFrom]
  | cons u us ih =>
    intro i
    simp only [List.cons_append, List.append_eq, ioListFrom, ih (i + 1), List.length_cons]
    have h2 : i + 1 + us.length = i + (us.length + 1) := by omega
    rw [h2]

theorem ioListFrom_length : ∀ (us : List Bytes) (i : Nat), (ioListFrom i us).length = us.length := by
  intro us
  induction us with
  | nil => intro i; rfl
  | cons u us ih => intro i; simp [ioListFrom, ih]

theorem ioListFrom_lt (v : Bytes) : ∀ (us : List Bytes) (i m : Nat),
    i + us.length ≤ m → m < 16 ^ 6 →
    ∀ w ∈ ioListFrom i us, bytesLt w (ordPre m ++ v) = true := by
  intro us
  induction us with
  | nil => intro i m _ _ w hw; simp [ioListFrom] at hw
  | cons u us ih =>
    intro i m hm h16 w hw
    simp only [ioListFrom, List.mem_cons, List.length_cons] at hw hm
    rcases hw with rfl | hw
    · exact ordPre_lt (by omega) h16 u v
    · exact ih (i + 1) m (by omega) h16 w hw

theorem ioListFrom_strip : ∀ (us : List Bytes) (i : Nat), i + us.length ≤ 16 ^ 6 →
    (ioListFrom i us).map (fun v => v.drop 7) = us := by
  intro us
  induction us with
  | nil => intro i _; rfl
  | cons u us ih =>
    intro i h
    simp only [ioListFrom, List.map_cons, List.length_cons] at h ⊢
    rw [ordPre_drop (by omega) u, ih (i + 1) (by omega)]

theorem ioPutLoop_fresh : ∀ (vs us ds : List Bytes) (r : Bool),
    us.length + vs.length ≤ 16 ^ 6 → (∀ v ∈ vs, v ∉ ds) →
    (ioPutLoop ds (ioListFrom 0 us) vs us.length r).1 = ioListFrom 0 (us ++ vs) := by
  intro vs
  induction vs with
  | nil =>
    intro us ds r _ _
    simp [ioPutLoop]
  | cons v vs ih =>
    intro us ds r hcap hds
    have hv : v ∉ ds := hds v (by simp)
    unfold ioPutLoop
    rw [if_neg hv]
    have hlt : us.length < 16 ^ 6 := by
      simp only [List.length_cons] at hcap
      omega
    rw [insOrd_append _ _ (ioListFrom_lt v us 0 us.length (by omega) hlt)]
    have happ : ioListFrom 0 (us ++ [v]) = ioListFrom 0 us ++ [ordPre us.length ++ v] := by
      rw [ioListFrom_append v us 0, Nat.zero_add]
    rw [← happ]
    have hcnt : us.length + 1 = (us ++ [v]).length := by simp
    rw [hcnt]
    rw [ih (us ++ [v]) ds true (by simp; simp at hcap; omega)
      (fun x hx => hds x (List.mem_cons_of_mem _ hx))]
    rw [List.append_assoc]
    rfl

theorem runIoScript_spec : ∀ (script : List (List Bytes)) (env : Env) (db : String)
    (key : Bytes) (us : List Bytes),
    env db key = ioListFrom 0 us → (us ++ script.flatten).Nodup →
    us.length + script.flatten.length ≤ 16 ^ 6 →
    (runIoScript env db key script) db key = ioListFrom 0 (us ++ script.flatten) := by
  intro script
  induction script with
  | nil =>
    intro env db key us he _ _
    simp only [runIoScript, List.flatten_nil, List.append_nil]
    exact he
  | cons vs rest ih =>
    intro env db key us he hnd hcap
    simp only [List.flatten_cons] at hnd hcap
    have hlen : us.length + vs.length + rest.flatten.length ≤ 16 ^ 6 := by
      rw [List.length_append] at hcap
      omega
    have hfresh : ∀ v ∈ vs, v ∉ us := by
      intro v hv hu
      have hd := (List.nodup_append.mp hnd).2.2
      exact hd hu (List.mem_append_left _ hv)
    simp only [runIoScript]
    have hput : (putIoVals env db key vs).1 = updateEnv env db key
        (ioPutLoop ((env db key).map (fun v => v.drop 7)) (env db key) vs
          (env db key).length false).1 := rfl
    rw [hput, he, ioListFrom_strip us 0 (by omega), ioListFrom_length us 0]
    rw [ioPutLoop_fresh vs us us false (by omega) hfresh]
    have := ih (updateEnv env db key (ioListFrom 0 (us ++ vs))) db key (us ++ vs)
      (updateEnv_same env db key _)
      (by rw [List.append_assoc]; exact hnd)
      (by rw [List.length_append]; omega)
    rw [this, List.append_assoc, List.flatten_cons]

/-- Claim C1: for every insertion-ordered sub-store, key, and sequence of
pairwise-distinct values inserted at that key in order through putIoVals
calls (addIoVal being the same operation as putIoVals of a one-value list),
getIoVals returns exactly that sequence in insertion order, each value with
its 7-byte ordinal prefix stripped.  The total number of values stays within
the documented ordinal capacity of 2 to the 24. -/
theorem ioVals_insertion_order :
    (∀ (env : Env) (db : String) (key val : Bytes),
      addIoVal env db key val = putIoVals env db key [val]) ∧
    (∀ (env : Env) (db : String) (key : Bytes) (script : List (List Bytes)),
      env db key = [] → script.flatten.Nodup → script.flatten.length ≤ 16 ^ 6 →
      getIoVals (runIoScript env db key script) db key = script.flatten) := by
  constructor
  · intro env db key val
    by_cases h : val ∈ (env db key).map (fun v => v.drop 7)
    · simp only [addIoVal, putIoVals, ioPutLoop, h, if_pos, if_true]
      rw [updateEnv_id]
    · simp only [addIoVal, putIoVals, ioPutLoop, h, if_neg, if_false]
  · intro env db key script h0 hnd hcap
    have hrun := runIoScript_spec script env db key [] (by rw [h0]; rfl)
      (by simpa using hnd) (by simpa using hcap)
    unfold getIoVals
    rw [hrun]
    simp only [List.nil_append]
    exact ioListFrom_strip _ 0 (by omega)

/-- Concrete instance of claim C1. -/
theorem ioVals_insertion_order_app :
    addIoVal envEmpty "kels." [66] [7] = putIoVals envEmpty "kels." [66] [[7]] ∧
    getIoVals (runIoScript envEmpty "kels." [66, 46, 48] [[[1], [2]], [[3]]]) "kels."
      [66, 46, 48] = [[1], [2], [3]] := by
  constructor
  · exact ioVals_insertion_order.1 envEmpty "kels." [66] [7]
  · exact ioVals_insertion_order.2 envEmpty "kels." [66, 46, 48] [[[1], [2]], [[3]]]
      rfl (by decide) (by decide)

/-- Claim C6: getIoValsLast returns the absent marker on an absent key, and
after distinct values are inserted at a key in order it returns the
last-inserted value with the 7-byte ordinal prefix stripped. -/
theorem ioValsLast_spec :
    (∀ (env : Env) (db : String) (key : Bytes),
      env db key = [] → getIoValsLast env db key = none) ∧
    (∀ (env : Env) (db : String) (key : Bytes) (script : List (List Bytes)),
      env db key = [] → script.flatten.Nodup → script.flatten.length ≤ 16 ^ 6 →
      getIoValsLast (runIoScript env db key script) db key = script.flatten.getLast?) := by
  constructor
  · intro env db key h
    unfold getIoValsLast
    rw [h]
    rfl
  · intro env db key script h0 hnd hcap
    have hrun := runIoScript_spec script env db key [] (by rw [h0]; rfl)
      (by simpa using hnd) (by simpa using hcap)
    unfold getIoValsLast
    rw [hrun]
    simp only [List.nil_append]
    rcases List.eq_nil_or_concat script.flatten with he | ⟨ws, v, he⟩
    · rw [he]
      rfl
    · rw [List.concat_eq_append] at he
      rw [he] at hcap ⊢
      have hw : ws.length < 16 ^ 6 := by
        rw [List.length_append] at hcap
        simp at hcap
        omega
      rw [ioListFrom_append v ws 0, List.getLast?_concat, List.getLast?_concat, Nat.zero_add]
      simp only [Option.map_some']
      rw [ordPre_drop hw v]

/-- Concrete instance of claim C6. -/
theorem ioValsLast_spec_app :
    getIoValsLast envEmpty "kels." [66] = none ∧
    getIoValsLast (runIoScript envEmpty "kels." [66, 46, 48] [[[1], [2]], [[3]]]) "kels."
      [66, 46, 48] = some [3] := by
  constructor
  · exact ioValsLast_spec.1 envEmpty "kels." [66] rfl
  · exact ioValsLast_spec.2 envEmpty "kels." [66, 46, 48] [[[1], [2]], [[3]]]
      rfl (by decide) (by decide)

/-- Counterexample to claim C2 as frozen: one putIoVals call whose value list
repeats the same value inserts it once per occurrence, because the duplicate
set is read once before the loop and never refreshed inside it, so the second
insertion of the value is not a no-op and the key holds two stripped copies. -/
theorem putIoVals_repeated_val_dup :
    getIoVals ((putIoVals envEmpty "kels." [66] [[7], [7]]).1) "kels." [66] = [[7], [7]] ∧
    (getIoVals ((putIoVals envEmpty "kels." [66] [[7], [7]]).1) "kels." [66]).count [7] = 2 := by
  constructor
  · decide
  · decide

/-- Claim C2 (amended): across separate insertion operations, key and value
pairs are unique.  Re-adding a value already present at a key through addVal,
addIoVal, or a later putIoVals call leaves the store unchanged and addVal and
addIoVal report false; a fresh addVal leaves exactly one entry; putVals of an
already-present value leaves the sorted duplicate list unchanged.  Within one
putIoVals call a repeated value is however inserted once per occurrence. -/
theorem dupval_second_insert_noop :
    (∀ (env : Env) (db : String) (key val : Bytes),
      addVal ((addVal env db key val).1) db key val = ((addVal env db key val).1, false)) ∧
    (∀ (env : Env) (db : String) (key val : Bytes), val ∉ env db key →
      (((addVal env db key val).1) db key).count val = 1) ∧
    (∀ (env : Env) (db : String) (key val : Bytes), (env db key).length + 1 ≤ 16 ^ 6 →
      addIoVal ((addIoVal env db key val).1) db key val = ((addIoVal env db key val).1, false)) ∧
    (∀ (env : Env) (db : String) (key val : Bytes),
      val ∈ (env db key).map (fun v => v.drop 7) →
      addIoVal env db key val = (env, false) ∧ putIoVals env db key [val] = (env, false)) ∧
    (∀ (env : Env) (db : String) (key val : Bytes),
      List.Pairwise (fun x y => bytesLt x y = true) (env db key) → val ∈ env db key →
      putVals env db key [val] = (env, true)) := by
  refine ⟨?_, ?_, ?_, ?_, ?_⟩
  · intro env db key val
    by_cases h : val ∈ getVals env db key
    · have h1 : addVal env db key val = (env, false) := by simp [addVal, h]
      rw [h1]
      exact h1
    · have h1 : addVal env db key val
          = (updateEnv env db key (insOrd val (env db key)), true) := by simp [addVal, h]
      rw [h1]
      have hmem : val ∈ getVals (updateEnv env db key (insOrd val (env db key))) db key := by
        unfold getVals
        rw [updateEnv_same]
        exact mem_insOrd_self val _
      simp [addVal, hmem]
  · intro env db key val h
    have h1 : addVal env db key val
        = (updateEnv env db key (insOrd val (env db key)), true) := by simp [addVal, getVals, h]
    rw [h1]
    show ((updateEnv env db key (insOrd val (env db key))) db key).count val = 1
    rw [updateEnv_same, count_insOrd val _ h, List.count_eq_zero.mpr h]
  · intro env db key val hcap
    by_cases h : val ∈ (env db key).map (fun v => v.drop 7)
    · have h1 : addIoVal env db key val = (env, false) := by simp [addIoVal, h]
      rw [h1]
      exact h1
    · have h1 : addIoVal env db key val
          = (updateEnv env db key
              (insOrd (ordPre (env db key).length ++ val) (env db key)), true) := by
        simp [addIoVal, h]
      rw [h1]
      have hmem : val ∈ ((updateEnv env db key
          (insOrd (ordPre (env db key).length ++ val) (env db key))) db key).map
            (fun v => v.drop 7) := by
        rw [updateEnv_same]
        have hx := mem_insOrd_self (ordPre (env db key).length ++ val) (env db key)
        have hlt : (env db key).length < 16 ^ 6 := by omega
        have hd : (ordPre (env db key).length ++ val).drop 7 = val := ordPre_drop hlt val
        have hm2 : (ordPre (env db key).length ++ val).drop 7 ∈
            (insOrd (ordPre (env db key).length ++ val) (env db key)).map
              (fun v => v.drop 7) := List.mem_map_of_mem _ hx
        rwa [hd] at hm2
      simp [addIoVal, hmem]
  · intro env db key val h
    constructor
    · simp [addIoVal, h]
    · have h1 : putIoVals env db key [val] = (updateEnv env db key (env db key), false) := by
        simp [putIoVals, ioPutLoop, h]
      rw [h1, updateEnv_id]
  · intro env db key val hp hm
    unfold putVals
    simp only [List.foldl_cons, List.foldl_nil]
    rw [insOrd_of_mem _ hp val hm, updateEnv_id]

/-- Concrete instance of claim C2 as amended. -/
theorem dupval_second_insert_noop_app :
    addVal ((addVal envEmpty "sigs." [1] [7]).1) "sigs." [1] [7]
      = ((addVal envEmpty "sigs." [1] [7]).1, false) ∧
    (((addVal envEmpty "sigs." [1] [7]).1) "sigs." [1]).count [7] = 1 ∧
    addIoVal ((addIoVal envEmpty "kels." [1] [7]).1) "kels." [1] [7]
      = ((addIoVal envEmpty "kels." [1] [7]).1, false) ∧
    putIoVals ((addIoVal envEmpty "kels." [1] [7]).1) "kels." [1] [[7]]
      = ((addIoVal envEmpty "kels." [1] [7]).1, false) ∧
    putVals ((addVal envEmpty "sigs." [1] [7]).1) "sigs." [1] [[7]]
      = ((addVal envEmpty "sigs." [1] [7]).1, true) := by
  refine ⟨?_, ?_, ?_, ?_, ?_⟩
  · exact dupval_second_insert_noop.1 envEmpty "sigs." [1] [7]
  · exact dupval_second_insert_noop.2.1 envEmpty "sigs." [1] [7] (by decide)
  · exact dupval_second_insert_noop.2.2.1 envEmpty "kels." [1] [7] (by decide)
  · exact (dupval_second_insert_noop.2.2.2.1 ((addIoVal envEmpty "kels." [1] [7]).1)
      "kels." [1] [7] (by decide)).2
  · exact dupval_second_insert_noop.2.2.2.2 ((addVal envEmpty "sigs." [1] [7]).1)
      "sigs." [1] [7] (by decide) (by decide)

/-- Claim C3 (code bug): nothing in putIoVals or addIoVal enforces the 2 to
the 24 ordinal capacity.  At a key already holding 16777216 duplicates the
insertion loop still inserts, the formatted ordinal grows to 8 bytes, the
7-byte strip then returns a corrupted value (a leading dot byte), and the
ordinal of the overflowing entry sorts before the ordinal 16777215, breaking
the insertion-order correspondence, where the claim requires the insertion to
be refused with a CapacityExceeded error. -/
theorem capacity_not_enforced :
    ioPutLoop [] [] [[65]] (16 ^ 6) false = ([ordPre (16 ^ 6) ++ [65]], true) ∧
    (ordPre (16 ^ 6)).length = 8 ∧
    (ordPre (16 ^ 6) ++ [65]).drop 7 = [46, 65] ∧
    bytesLt (ordPre (16 ^ 6)) (ordPre (16 ^ 6 - 1)) = true := by
  refine ⟨?_, ?_, ?_, ?_⟩ <;> decide

/-- Claim C4: snKey is the prefix, the dot byte, then the lowercase
zero-padded 32-character hexadecimal field of the sequence number, so a key
for a sequence number below 2 to the 128 has length prefix plus 33, and for a
fixed prefix the byte-lexicographic order of keys agrees with numeric order
of the sequence numbers. -/
theorem snKey_hex32_mono :
    ∀ (pre : Bytes) (sn1 sn2 : Nat), sn1 < sn2 → sn2 < 2 ^ 128 →
    snKey pre sn1 = pre ++ [46] ++ fmtHex 32 sn1 ∧
    (snKey pre sn1).length = pre.length + 33 ∧
    bytesLt (snKey pre sn1) (snKey pre sn2) = true := by
  intro pre sn1 sn2 h12 h2
  have h16 : (16:Nat) ^ 32 = 2 ^ 128 := by norm_num
  have h2a : sn2 < 16 ^ 32 := by omega
  have h1a : sn1 < 16 ^ 32 := by omega
  refine ⟨rfl, ?_, ?_⟩
  · unfold snKey
    simp only [List.length_append, List.length_cons, List.length_nil]
    rw [fmtHex_length (by omega) h1a]
  · unfold snKey
    rw [bytesLt_append_left]
    exact fmtHex_mono (by omega) h12 h2a

/-- Concrete instance of claim C4. -/
theorem snKey_hex32_mono_app :
    snKey [66] 3 = [66] ++ [46] ++ fmtHex 32 3 ∧
    (snKey [66] 3).length = ([66] : Bytes).length + 33 ∧
    bytesLt (snKey [66] 3) (snKey [66] 5) = true :=
  snKey_hex32_mono [66] 3 5 (by decide) (by norm_num)

/-- Claim C10: snKey performs no range validation.  For a sequence number at
or above 2 to the 128 it still returns a key, longer than prefix length plus
33, and the order correspondence fails there: the key for 2 to the 128 sorts
strictly before the key for 2 to the 128 minus 1. -/
theorem snKey_overflow :
    ∀ (pre : Bytes) (sn : Nat), 2 ^ 128 ≤ sn →
    pre.length + 33 < (snKey pre sn).length ∧
    2 ^ 128 - 1 < 2 ^ 128 ∧
    bytesLt (snKey pre (2 ^ 128)) (snKey pre (2 ^ 128 - 1)) = true := by
  intro pre sn h
  have h16 : (16:Nat) ^ 32 = 2 ^ 128 := by norm_num
  refine ⟨?_, by norm_num, ?_⟩
  · unfold snKey
    simp only [List.length_append, List.length_cons, List.length_nil]
    have hgt : 32 < (hexBytes sn).length := hexBytes_length_gt (by omega) (by omega)
    rw [fmtHex_length_eq_max]
    omega
  · unfold snKey
    rw [bytesLt_append_left]
    decide

/-- Concrete instance of claim C10. -/
theorem snKey_overflow_app :
    ([66] : Bytes).length + 33 < (snKey [66] (2 ^ 128)).length ∧
    2 ^ 128 - 1 < 2 ^ 128 ∧
    bytesLt (snKey [66] (2 ^ 128)) (snKey [66] (2 ^ 128 - 1)) = true :=
  snKey_overflow [66] (2 ^ 128) (by norm_num)

/-- Claim C5: putVal inserts exactly when the key is absent, returning true;
on an occupied key it returns false without raising and leaves the stored
value unchanged. -/
theorem putVal_insert_iff_absent :
    ∀ (env : Env) (db : String) (key val : Bytes),
    (getVal env db key = none →
      putVal env db key val = (updateEnv env db key [val], true) ∧
      getVal (putVal env db key val).1 db key = some val) ∧
    (∀ w, getVal env db key = some w →
      putVal env db key val = (env, false) ∧
      getVal (putVal env db key val).1 db key = some w) := by
  intro env db key val
  constructor
  · intro h
    have he : env db key = [] := by
      cases hl : env db key with
      | nil => rfl
      | cons a t =>
        unfold getVal at h
        rw [hl] at h
        simp at h
    constructor
    · simp [putVal, he]
    · simp [putVal, he, getVal, updateEnv_same]
  · intro w h
    obtain ⟨t, ht⟩ : ∃ t, env db key = w :: t := by
      cases hl : env db key with
      | nil =>
        unfold getVal at h
        rw [hl] at h
        simp at h
      | cons a t =>
        unfold getVal at h
        rw [hl] at h
        simp at h
        exact ⟨t, by rw [h]⟩
    constructor
    · simp [putVal, ht]
    · simp [putVal, ht, getVal]

/-- Concrete instance of claim C5. -/
theorem putVal_insert_iff_absent_app :
    (putVal envEmpty "evts." [1] [7] = (updateEnv envEmpty "evts." [1] [[7]], true) ∧
      getVal (putVal envEmpty "evts." [1] [7]).1 "evts." [1] = some [7]) ∧
    (putVal (updateEnv envEmpty "evts." [1] [[7]]) "evts." [1] [8]
        = (updateEnv envEmpty "evts." [1] [[7]], false) ∧
      getVal (putVal (updateEnv envEmpty "evts." [1] [[7]]) "evts." [1] [8]).1 "evts." [1]
        = some [7]) := by
  constructor
  · exact (putVal_insert_iff_absent envEmpty "evts." [1] [7]).1 rfl
  · exact (putVal_insert_iff_absent (updateEnv envEmpty "evts." [1] [[7]])
      "evts." [1] [8]).2 [7] (by decide)

/-- Claim C8: delVal, delVals, and delIoVals on an absent key return false
and leave the environment unchanged. -/
theorem del_absent_idempotent :
    ∀ (env : Env) (db : String) (key : Bytes), env db key = [] →
    delVal env db key = (env, false) ∧ delVals env db key = (env, false) ∧
    delIoVals env db key = (env, false) := by
  intro env db key h
  refine ⟨?_, ?_, ?_⟩ <;> simp [delVal, delVals, delIoVals, h]

/-- Concrete instance of claim C8. -/
theorem del_absent_idempotent_app :
    delVal envEmpty "evts." [1] = (envEmpty, false) ∧
    delVals envEmpty "sigs." [1] = (envEmpty, false) ∧
    delIoVals envEmpty "kels." [1] = (envEmpty, false) := by
  refine ⟨?_, ?_, ?_⟩
  · exact (del_absent_idempotent envEmpty "evts." [1] rfl).1
  · exact (del_absent_idempotent envEmpty "sigs." [1] rfl).2.1
  · exact (del_absent_idempotent envEmpty "kels." [1] rfl).2.2

theorem updateEnv_frame (env : Env) (db1 : String) (key1 : Bytes) (l : List Bytes)
    (db2 : String) (key2 : Bytes) (hne : db1 ≠ db2) :
    updateEnv env db1 key1 l db2 key2 = env db2 key2 :=
  updateEnv_other env db1 key1 l db2 key2 (fun hc => hne hc.1.symm)

/-- Claim C9: every write or delete against one named sub-store leaves every
other named sub-store untouched, and in particular writing the same digest
under the same snKey into pses. and ooes. leaves a count of one in each,
while deleting from pses. does not affect ooes. -/
theorem substore_frame :
    (∀ (env : Env) (db1 db2 : String) (key1 key2 val : Bytes) (vals : List Bytes),
      db1 ≠ db2 →
      (putVal env db1 key1 val).1 db2 key2 = env db2 key2 ∧
      (setVal env db1 key1 val).1 db2 key2 = env db2 key2 ∧
      (addVal env db1 key1 val).1 db2 key2 = env db2 key2 ∧
      (putVals env db1 key1 vals).1 db2 key2 = env db2 key2 ∧
      (putIoVals env db1 key1 vals).1 db2 key2 = env db2 key2 ∧
      (addIoVal env db1 key1 val).1 db2 key2 = env db2 key2 ∧
      (delVal env db1 key1).1 db2 key2 = env db2 key2 ∧
      (delVals env db1 key1).1 db2 key2 = env db2 key2 ∧
      (delIoVals env db1 key1).1 db2 key2 = env db2 key2) ∧
    (cntPses ((putOoes ((putPses envEmpty (snKey [66] 0) [[7]]).1) (snKey [66] 0)
        [[7]]).1) (snKey [66] 0) = 1 ∧
      cntOoes ((putOoes ((putPses envEmpty (snKey [66] 0) [[7]]).1) (snKey [66] 0)
        [[7]]).1) (snKey [66] 0) = 1 ∧
      cntOoes ((delPses ((putOoes ((putPses envEmpty (snKey [66] 0) [[7]]).1)
        (snKey [66] 0) [[7]]).1) (snKey [66] 0)).1) (snKey [66] 0) = 1 ∧
      cntPses ((delPses ((putOoes ((putPses envEmpty (snKey [66] 0) [[7]]).1)
        (snKey [66] 0) [[7]]).1) (snKey [66] 0)).1) (snKey [66] 0) = 0) := by
  constructor
  · intro env db1 db2 key1 key2 val vals hne
    refine ⟨?_, ?_, ?_, ?_, ?_, ?_, ?_, ?_, ?_⟩
    · unfold putVal
      cases env db1 key1 with
      | nil => exact updateEnv_frame env db1 key1 _ db2 key2 hne
      | cons a t => rfl
    · exact updateEnv_frame env db1 key1 _ db2 key2 hne
    · unfold addVal
      split
      · rfl
      · exact updateEnv_frame env db1 key1 _ db2 key2 hne
    · exact updateEnv_frame env db1 key1 _ db2 key2 hne
    · exact updateEnv_frame env db1 key1 _ db2 key2 hne
    · by_cases h : val ∈ (env db1 key1).map (fun v => v.drop 7)
      · simp [addIoVal, h]
      · simp only [addIoVal, h, if_false, Bool.false_eq_true]
        exact updateEnv_frame env db1 key1 _ db2 key2 hne
    · unfold delVal
      cases env db1 key1 with
      | nil => rfl
      | cons a t => exact updateEnv_frame env db1 key1 _ db2 key2 hne
    · unfold delVals
      cases env db1 key1 with
      | nil => rfl
      | cons a t => exact updateEnv_frame env db1 key1 _ db2 key2 hne
    · unfold delIoVals
      cases env db1 key1 with
      | nil => rfl
      | cons a t => exact updateEnv_frame env db1 key1 _ db2 key2 hne
  · refine ⟨?_, ?_, ?_, ?_⟩ <;> decide

/-- Concrete instance of claim C9. -/
theorem substore_frame_app :
    (putIoVals envEmpty "pses." (snKey [66] 0) [[7]]).1 "ooes." (snKey [66] 0)
      = envEmpty "ooes." (snKey [66] 0) ∧
    (delIoVals envEmpty "pses." (snKey [66] 0)).1 "ooes." (snKey [66] 0)
      = envEmpty "ooes." (snKey [66] 0) := by
  constructor
  · exact (substore_frame.1 envEmpty "pses." "ooes." (snKey [66] 0) (snKey [66] 0)
      [] [[7]] (by decide)).2.2.2.2.1
  · exact (substore_frame.1 envEmpty "pses." "ooes." (snKey [66] 0) (snKey [66] 0)
      [] [[7]] (by decide)).2.2.2.2.2.2.2.2

/-- A filesystem on which nothing exists and every directory creation fails
with ENOSPC, errno 28. -/
def fsAllMissing : FSys where
  pathExists := fun _ => false
  accessRW := fun _ => true
  makedirs := fun _ => some ⟨28⟩
  expandUser := fun p => p
  absPath := fun p => p

/-- A filesystem on which every path exists but none is readable and
writable. -/
def fsNoAccess : FSys where
  pathExists := fun _ => true
  accessRW := fun _ => false
  makedirs := fun _ => none
  expandUser := fun p => p
  absPath := fun p => p

/-- Counterexample to claim C7 as frozen: creating the preferred directory
fails with ENOSPC, errno 28, which is neither EACCES nor EPERM, yet the
engine falls back to the alternate path and succeeds instead of propagating
the error to the caller. -/
theorem fallback_on_enospc :
    fsDiskFull.makedirs (primaryPath fsDiskFull none "main") = some ⟨28⟩ ∧
    (28 ≠ EACCES ∧ 28 ≠ EPERM) ∧
    resolvePath fsDiskFull none "main" = Except.ok "~/.keri/db/main" ∧
    resolvePath fsDiskFull none "main" = Except.ok (altPath fsDiskFull "main") := by
  refine ⟨rfl, by decide, rfl, rfl⟩

/-- Claim C7 (amended): during non-temp path resolution the engine falls
back to the alternate path on ANY OSError raised while creating the
preferred directory, whatever its errno, and likewise when the preferred
path exists but is not readable and writable; only an error creating the
alternate path propagates to the caller unchanged. -/
theorem resolve_fallback_any_oserror :
    ∀ (fs : FSys) (headDirPath : Option String) (name : String) (e : OSErr),
    (fs.pathExists (primaryPath fs headDirPath name) = false →
      fs.makedirs (primaryPath fs headDirPath name) = some e →
      resolvePath fs headDirPath name = altResolve fs name) ∧
    (fs.pathExists (primaryPath fs headDirPath name) = true →
      fs.accessRW (primaryPath fs headDirPath name) = false →
      resolvePath fs headDirPath name = altResolve fs name) ∧
    (fs.pathExists (altPath fs name) = false →
      fs.makedirs (altPath fs name) = some e →
      altResolve fs name = Except.error e) := by
  intro fs head name e
  refine ⟨?_, ?_, ?_⟩
  · intro h1 h2
    unfold resolvePath
    simp [h1, h2]
  · intro h1 h2
    unfold resolvePath
    simp [h1, h2]
  · intro h1 h2
    unfold altResolve
    simp [h1, h2]

/-- Concrete instance of claim C7 as amended. -/
theorem resolve_fallback_any_oserror_app :
    resolvePath fsAllMissing none "main" = altResolve fsAllMissing "main" ∧
    resolvePath fsNoAccess none "main" = altResolve fsNoAccess "main" ∧
    altResolve fsAllMissing "main" = Except.error ⟨28⟩ := by
  refine ⟨?_, ?_, ?_⟩
  · exact (resolve_fallback_any_oserror fsAllMissing none "main" ⟨28⟩).1 rfl rfl
  · exact (resolve_fallback_any_oserror fsNoAccess none "main" ⟨28⟩).2.1 rfl rfl
  · exact (resolve_fallback_any_oserror fsAllMissing none "main" ⟨28⟩).2.2 rfl rfl
